import Mathlib

/-!
Verification of the `talias` terminal menu launcher (`src/main.go`).

The program is a tview-based TUI.  We shallowly embed its pure core
(the `Option` tree type, `containsOption`, `flattenOptions`, `fuzzySearch`,
`expandCommand`, `executeCommand`) and its navigation / search state machine
(the closures `populateList`, `switchToSearchMode`, `switchToNormalMode` and
the global `app.SetInputCapture` handler) as Lean functions over an explicit
application state.  Effects (writing to stdout, stopping the tview run loop)
are recorded in the state.  Go's `string` is modelled by Lean's `String`
(`strings.ToLower` by `String.toLower`, which agrees on ASCII;
`strings.Contains` by infix containment on the character list, which agrees
on valid UTF-8).  The Go standard-library helpers the code calls
(`strings.ReplaceAll`, `filepath.Join`/`Clean`) are modelled from their
documented semantics below.
-/

namespace Talias

/-- The `Option` struct of `main.go` (a node of the menu tree):
`Title`, `Details`, `Command`, `Children`.  Named `Opt` because `Option`
is taken by Lean's core library. -/
inductive Opt : Type where
  | mk (title : String) (details : String) (command : String)
       (children : List Opt) : Opt

def Opt.title : Opt → String
  | .mk t _ _ _ => t

def Opt.details : Opt → String
  | .mk _ d _ _ => d

def Opt.command : Opt → String
  | .mk _ _ c _ => c

def Opt.children : Opt → List Opt
  | .mk _ _ _ ch => ch

/-- `containsOption(options, target)` of `main.go`: same length and
pairwise-equal titles. -/
def containsOption (options target : List Opt) : Bool :=
  if options.length ≠ target.length then false
  else (options.zip target).all (fun p => p.1.title == p.2.title)

/-- `flattenOptions` of `main.go`: walk the forest in order; a node with
non-empty children contributes the flattening of its children (the node
itself is skipped), a leaf contributes itself. -/
def flattenOptions : List Opt → List Opt
  | [] => []
  | .mk t d c ch :: rest =>
    if ch.length > 0 then
      flattenOptions ch ++ flattenOptions rest
    else
      .mk t d c ch :: flattenOptions rest
termination_by l => sizeOf l
decreasing_by all_goals (simp <;> omega)

/-- Infix containment on character lists: `sub` occurs contiguously in the
second argument. -/
def infixOf (sub : List Char) : List Char → Bool
  | [] => sub.isEmpty
  | c :: rest => sub.isPrefixOf (c :: rest) || infixOf sub rest

/-- Go `strings.Contains(s, substr)`: `substr` occurs as a contiguous
substring of `s`. -/
def strContains (s sub : String) : Bool := infixOf sub.data s.data

/-- Go `strings.ToLower`, modelled by lower-casing each character
(faithful on ASCII data). -/
def strToLower (s : String) : String := ⟨s.data.map Char.toLower⟩

/-- `fuzzySearch(query, options)` of `main.go`: empty query returns the
input unchanged; otherwise the loop keeps, in order, the options whose
lower-cased title contains the lower-cased query as a substring
(`strings.Contains`), appending each hit to the result slice. -/
def fuzzySearch (query : String) (options : List Opt) : List Opt :=
  if query = "" then options
  else
    let queryLower := strToLower query
    options.foldl
      (fun results opt =>
        if strContains (strToLower opt.title) queryLower then
          results ++ [opt]
        else results)
      []

/-- Go `strings.ReplaceAll(s, old, new)` for a non-empty `old`
(the program only uses `old = "~/"`): scan left to right and replace
each non-overlapping occurrence of `old` by `new`. -/
def replaceAllAux (o : Char) (os news : List Char) : List Char → List Char
  | [] => []
  | c :: rest =>
    if (o :: os).isPrefixOf (c :: rest) then
      news ++ replaceAllAux o os news (rest.drop os.length)
    else
      c :: replaceAllAux o os news rest
termination_by l => l.length
decreasing_by
  · simp
    have := List.length_drop os.length rest
    omega
  · simp

/-- Go `strings.ReplaceAll(s, old, new)`.  For empty `old`, Go inserts
`new` before every character and after the last one. -/
def replaceAll (s old news : String) : String :=
  match old.data with
  | [] => ⟨news.data ++ (s.data.map (fun c => [c] ++ news.data)).flatten⟩
  | o :: os => ⟨replaceAllAux o os news.data s.data⟩

/-- Split a character list on a separator character (occurrences of the
separator delimit possibly-empty chunks). -/
def splitOnChar (sep : Char) : List Char → List (List Char)
  | [] => [[]]
  | c :: rest =>
    if c = sep then [] :: splitOnChar sep rest
    else
      match splitOnChar sep rest with
      | [] => [[c]]
      | x :: xs => (c :: x) :: xs

/-- Go `path/filepath.Clean` (unix), per its documented rules: iteratively
replace multiple separators by one, eliminate `.` elements, eliminate each
inner `..` together with the non-`..` element before it, and eliminate `..`
elements that begin a rooted path.  Implemented over the list of non-empty
`/`-separated components with `acc` holding the kept components in reverse. -/
def cleanComponents (rooted : Bool) (acc : List (List Char)) :
    List (List Char) → List (List Char)
  | [] => acc
  | c :: cs =>
    if c = ['.'] then cleanComponents rooted acc cs
    else if c = ['.', '.'] then
      match acc with
      | [] => cleanComponents rooted (if rooted then [] else [['.', '.']]) cs
      | x :: restAcc =>
        if x = ['.', '.'] then cleanComponents rooted (c :: acc) cs
        else cleanComponents rooted restAcc cs
    else cleanComponents rooted (c :: acc) cs

/-- Go `filepath.Clean` (unix). -/
def cleanPath (p : String) : String :=
  if p = "" then "."
  else
    let rooted := p.data.head? = some '/'
    let comps := (splitOnChar '/' p.data).filter (· ≠ [])
    let kept := (cleanComponents rooted [] comps).reverse
    let out := (if rooted then ['/'] else []) ++ List.intercalate ['/'] kept
    if out = [] then "." else ⟨out⟩

/-- Go `filepath.Join(homeDir, "")`: empty elements are dropped and the
result is `Clean`ed, so this is `Clean homeDir` for non-empty input and
`""` when every element is empty. -/
def joinHomeEmpty (homeDir : String) : String :=
  if homeDir = "" then "" else cleanPath homeDir

/-- `expandCommand` of `main.go`.  `os.UserHomeDir()` is modelled by the
parameter `homeDir : Option String` (`none` = the error case). -/
def expandCommand (homeDir : Option String) (command : String) : String :=
  if ¬ strContains command "~/" then command
  else
    match homeDir with
    | none => command
    | some h => replaceAll command "~/" (joinHomeEmpty h ++ "/")

/-- The observable effect of `executeCommand`: what was written to stdout
and whether `app.Stop()` was called. -/
structure EmitResult where
  output : String
  stopped : Bool
deriving Repr, DecidableEq

/-- `executeCommand(option, app)` of `main.go`: nothing happens for an
empty command; otherwise the expanded command is printed (no newline) and
the run loop is stopped. -/
def executeCommand (homeDir : Option String) (option : Opt) : EmitResult :=
  if option.command.length = 0 then ⟨"", false⟩
  else ⟨expandCommand homeDir option.command, true⟩

/-! ## The navigation / search state machine of `main` -/

/-- A key event as seen by the global `app.SetInputCapture` handler:
a rune key, the Escape key, or any other key (passed through). -/
inductive KeyEvent : Type where
  | rune (c : Char)
  | escape
  | other
deriving Repr, DecidableEq

/-- The mutable state of `main`: the navigation variables
(`currentOptions`, `menuStack`, `currentTitle`), the search variables
(`searchMode`, `searchQuery`, `searchResults`), and the observable
effects (bytes written to stdout, whether `app.Stop()` was called). -/
structure AppState where
  currentOptions : List Opt
  menuStack : List (List Opt)
  currentTitle : String
  searchMode : Bool
  searchQuery : String
  searchResults : List Opt
  output : String
  stopped : Bool

/-- The state after `main`'s initialisation, just before `app.Run()`. -/
def initialState (root : List Opt) : AppState :=
  { currentOptions := root
    menuStack := []
    currentTitle := "Main Menu"
    searchMode := false
    searchQuery := ""
    searchResults := []
    output := ""
    stopped := false }

/-- The title recomputation in the Escape handler when the stack is still
non-empty after popping: fall back to `"Main Menu"`, then scan the root
options for the first whose children pass `containsOption` against the
new `currentOptions`. -/
def findParentTitle (root : List Opt) (current : List Opt) : String :=
  match root.find? (fun opt => containsOption opt.children current) with
  | some opt => opt.title
  | none => "Main Menu"

/-- `executeCommand` acting on the application state: append what it
prints to `output` and record `app.Stop()`. -/
def executeCommandS (homeDir : Option String) (option : Opt)
    (s : AppState) : AppState :=
  if option.command.length = 0 then s
  else { s with output := s.output ++ expandCommand homeDir option.command
                stopped := true }

/-- `switchToSearchMode` of `main.go`: set `searchMode`, clear the query,
and repopulate the search results from the flattened index
(`populateSearchResults` with the empty query). -/
def switchToSearchMode (root : List Opt) (s : AppState) : AppState :=
  { s with searchMode := true
           searchQuery := ""
           searchResults := fuzzySearch "" (flattenOptions root) }

/-- `switchToNormalMode` of `main.go`: clear `searchMode` and the query;
the navigation variables are untouched. -/
def switchToNormalMode (s : AppState) : AppState :=
  { s with searchMode := false
           searchQuery := "" }

/-- The `searchInput.SetChangedFunc` handler: store the new query text and
repopulate the search results. -/
def setSearchText (root : List Opt) (text : String) (s : AppState) : AppState :=
  { s with searchQuery := text
           searchResults := fuzzySearch text (flattenOptions root) }

/-- The per-item selection callback installed by `populateList`: an option
with children is a group — push `currentOptions`, descend into the
children and take the group's title; a leaf runs `executeCommand`. -/
def selectOption (homeDir : Option String) (option : Opt)
    (s : AppState) : AppState :=
  if option.children.length > 0 then
    { s with menuStack := s.menuStack ++ [s.currentOptions]
             currentOptions := option.children
             currentTitle := option.title }
  else
    executeCommandS homeDir option s

/-- The global `app.SetInputCapture` handler: `q` stops the app; `?`
switches to search mode; Escape exits search mode when in it, otherwise
pops the menu stack (recomputing the title, `"Main Menu"` when the stack
has emptied) or, at top level, stops the app. -/
def appInputCapture (root : List Opt) (ev : KeyEvent)
    (s : AppState) : AppState :=
  match ev with
  | .rune c =>
    if c = 'q' then { s with stopped := true }
    else if c = '?' then switchToSearchMode root s
    else s
  | .escape =>
    if s.searchMode then switchToNormalMode s
    else
      match s.menuStack.getLast? with
      | some prev =>
        let stack := s.menuStack.dropLast
        let title :=
          if stack.length = 0 then "Main Menu"
          else findParentTitle root prev
        { s with currentOptions := prev
                 menuStack := stack
                 currentTitle := title }
      | none => { s with stopped := true }
  | .other => s

/-- One event-loop step of the program: a key reaching the global input
capture, a normal-mode list selection (the callback exists only for the
options currently listed), a search-query change, or activating a search
result (which only ever runs `executeCommand`). -/
inductive Step (root : List Opt) (homeDir : Option String) :
    AppState → AppState → Prop where
  | key (ev : KeyEvent) (s : AppState) :
      Step root homeDir s (appInputCapture root ev s)
  | select (option : Opt) (s : AppState)
      (hmem : option ∈ s.currentOptions) (hmode : s.searchMode = false) :
      Step root homeDir s (selectOption homeDir option s)
  | search (text : String) (s : AppState) (hmode : s.searchMode = true) :
      Step root homeDir s (setSearchText root text s)
  | searchSelect (option : Opt) (s : AppState)
      (hmem : option ∈ s.searchResults) (hmode : s.searchMode = true) :
      Step root homeDir s (executeCommandS homeDir option s)

/-- States the program can be in: the initial state and everything
reachable from it by event-loop steps. -/
inductive Reachable (root : List Opt) (homeDir : Option String) :
    AppState → Prop where
  | init : Reachable root homeDir (initialState root)
  | step {s s' : AppState} : Reachable root homeDir s →
      Step root homeDir s s' → Reachable root homeDir s'

/-! ## Spec-side definitions

These follow the specification's wording (not the code) and are compared
against the embedded code in refinement theorems. -/

/-- Spec-side: all nodes of a forest in depth-first document order (each
node immediately followed by its descendants).  Used to state that
flattening returns exactly the leaves in document order. -/
def preorderTraversal : List Opt → List Opt
  | [] => []
  | .mk t d c ch :: rest =>
    .mk t d c ch :: (preorderTraversal ch ++ preorderTraversal rest)
termination_by l => sizeOf l
decreasing_by all_goals (simp <;> omega)

/-- Spec-side (§4.3 Back): among the root options, the first *group*
(non-empty children) whose children sequence is identical to the new
`current` — same length, titles equal pairwise and in order, i.e. equal
title lists; `"Main Menu"` when no group matches. -/
def specBackTitle (root current : List Opt) : String :=
  match root.find? (fun opt =>
      !opt.children.isEmpty &&
        opt.children.map Opt.title == current.map Opt.title) with
  | some opt => opt.title
  | none => "Main Menu"

/-- Spec-side (§4.5): scan the command left to right and replace every
occurrence of the two-character sequence `~/` by the home path followed
by `/` — a global plain-text substitution. -/
def specReplaceTilde (home : List Char) : List Char → List Char
  | '~' :: '/' :: rest => (home ++ ['/']) ++ specReplaceTilde home rest
  | c :: rest => c :: specReplaceTilde home rest
  | [] => []

/-! ## Concrete example data (used by witnesses and counterexamples) -/

/-- Leaf: a command with home shorthand. -/
def editLeaf : Opt := .mk "Edit Notes" "open the notes" "vi ~/notes.txt" []

/-- Leaf: a plain command. -/
def listLeaf : Opt := .mk "List Files" "list the files" "ls -la" []

/-- Inner group holding one leaf. -/
def docsGroup : Opt := .mk "Docs" "document tools" "" [editLeaf]

/-- Top-level group holding a group and a leaf. -/
def filesGroup : Opt := .mk "Files" "file tools" "" [docsGroup, listLeaf]

/-- A small concrete menu tree with two levels of nesting. -/
def root0 : List Opt := [filesGroup, .mk "Quit" "leave" "exit" []]

/-- The state after activating `filesGroup` from the initial state. -/
def afterFiles : AppState := selectOption none filesGroup (initialState root0)

/-- The state after then activating `docsGroup`. -/
def afterDocs : AppState := selectOption none docsGroup afterFiles

/-- A state sitting in search mode with a non-empty query, used to show
what the `?` key does while search mode is active. -/
def searchingState : AppState :=
  { currentOptions := root0
    menuStack := []
    currentTitle := "Main Menu"
    searchMode := true
    searchQuery := "ab"
    searchResults := flattenOptions root0
    output := ""
    stopped := false }

/-! ## Helper lemmas -/

theorem infixOf_iff (sub l : List Char) : infixOf sub l = true ↔ sub <:+: l := by
  induction l with
  | nil => simp [infixOf, List.infix_nil, List.isEmpty_iff]
  | cons c rest ih =>
    simp [infixOf, List.isPrefixOf_iff_prefix, ih, List.infix_cons_iff]

theorem infixOf_eq_decide (sub l : List Char) :
    infixOf sub l = decide (sub <:+: l) := by
  rw [Bool.eq_iff_iff]
  simp [infixOf_iff]

theorem foldl_filter_aux (p : Opt → Bool) (l : List Opt) : ∀ acc : List Opt,
    l.foldl (fun results opt => if p opt then results ++ [opt] else results) acc
      = acc ++ l.filter p := by
  induction l with
  | nil => intro acc; simp
  | cons x xs ih =>
    intro acc
    by_cases h : p x <;> simp [h, ih, List.filter_cons]

theorem string_length_zero_iff (s : String) : s.length = 0 ↔ s = "" := by
  cases s with
  | mk data => cases data <;> simp [String.length, String.ext_iff]

end Talias
namespace Talias
theorem flatten_eq (l : List Opt) :
    flattenOptions l = (preorderTraversal l).filter (fun o => o.children.isEmpty) := by
  induction l using flattenOptions.induct with
  | case1 => simp [flattenOptions, preorderTraversal]
  | case2 t d c ch rest hpos ih1 ih2 =>
    have hne : ch.isEmpty = false := by
      cases ch
      · simp at hpos
      · rfl
    simp [flattenOptions, preorderTraversal, hpos, ih1, ih2, List.filter_append,
      List.filter_cons, Opt.children, hne]
  | case3 t d c ch rest hneg ih =>
    have hch : ch = [] := by
      cases ch
      · rfl
      · simp at hneg
    subst hch
    simp [flattenOptions, preorderTraversal, List.filter_cons, Opt.children, ih]
end Talias
namespace Talias
theorem flatten_children_eq_nil (l : List Opt) :
    ∀ o ∈ flattenOptions l, o.children = [] := by
  induction l using flattenOptions.induct with
  | case1 => simp [flattenOptions]
  | case2 t d c ch rest hpos ih1 ih2 =>
    intro o ho
    simp [flattenOptions, hpos] at ho
    rcases ho with ho | ho
    · exact ih1 o ho
    · exact ih2 o ho
  | case3 t d c ch rest hneg ih =>
    intro o ho
    have hch : ch = [] := by
      cases ch
      · rfl
      · simp at hneg
    simp [flattenOptions, hneg] at ho
    rcases ho with ho | ho
    · subst ho; simp [Opt.children, hch]
    · exact ih o ho

theorem flatten_of_leaves (l : List Opt) (h : ∀ o ∈ l, o.children = []) :
    flattenOptions l = l := by
  induction l with
  | nil => simp [flattenOptions]
  | cons x xs ih =>
    cases x with
    | mk t d c ch =>
      have hch : ch = [] := h _ (List.mem_cons_self _ _)
      subst hch
      simp [flattenOptions]
      exact ih (fun o ho => h o (List.mem_cons_of_mem _ ho))
end Talias
namespace Talias
theorem containsOption_cons (x y : Opt) (xs ys : List Opt) :
    containsOption (x :: xs) (y :: ys)
      = ((x.title == y.title) && containsOption xs ys) := by
  by_cases h : xs.length = ys.length
  · simp [containsOption, h]
  · simp [containsOption, h]

theorem containsOption_iff (a : List Opt) : ∀ b : List Opt,
    containsOption a b = true ↔ a.map Opt.title = b.map Opt.title := by
  induction a with
  | nil =>
    intro b
    cases b <;> simp [containsOption]
  | cons x xs ih =>
    intro b
    cases b with
    | nil => simp [containsOption]
    | cons y ys => simp [containsOption_cons, ih ys]

theorem find?_pointwise {α : Type} (p q : α → Bool) : ∀ l : List α,
    (∀ x ∈ l, p x = q x) → l.find? p = l.find? q := by
  intro l
  induction l with
  | nil => intro _; rfl
  | cons x xs ih =>
    intro h
    have hx := h x (List.mem_cons_self x xs)
    rw [List.find?_cons, List.find?_cons, ← hx]
    cases hpx : p x
    · exact ih (fun y hy => h y (List.mem_cons_of_mem _ hy))
    · rfl
end Talias
namespace Talias
theorem findParentTitle_eq_spec (root current : List Opt) (hc : current ≠ []) :
    findParentTitle root current = specBackTitle root current := by
  unfold findParentTitle specBackTitle
  have hpt : root.find? (fun opt => containsOption opt.children current)
      = root.find? (fun opt => !opt.children.isEmpty &&
          (opt.children.map Opt.title == current.map Opt.title)) := by
    apply find?_pointwise
    intro opt _
    by_cases h : opt.children.map Opt.title = current.map Opt.title
    · have hco : containsOption opt.children current = true :=
        (containsOption_iff _ _).mpr h
      have hne : opt.children ≠ [] := by
        intro hnil
        rw [hnil] at h
        simp at h
        exact hc h
      simp [hco, h, hne]
    · have hco : containsOption opt.children current = false := by
        cases hx : containsOption opt.children current
        · rfl
        · exact absurd ((containsOption_iff _ _).mp hx) h
      simp [hco, h]
  rw [hpt]
end Talias
namespace Talias
theorem menuStack_executeCommandS (home : Option String) (o : Opt)
    (s : AppState) : (executeCommandS home o s).menuStack = s.menuStack := by
  unfold executeCommandS
  split <;> rfl

theorem menuStack_appInputCapture (root : List Opt) (ev : KeyEvent)
    (s : AppState) :
    (appInputCapture root ev s).menuStack = s.menuStack ∨
    (appInputCapture root ev s).menuStack = s.menuStack.dropLast := by
  unfold appInputCapture
  cases ev with
  | rune c =>
    by_cases hq : c = 'q'
    · simp [hq]
    · by_cases hw : c = '?'
      · simp [hq, hw, switchToSearchMode]
      · simp [hq, hw]
  | escape =>
    by_cases hm : s.searchMode = true
    · simp [hm, switchToNormalMode]
    · cases hlast : s.menuStack.getLast? <;> simp [hm, hlast]
  | other => simp

theorem stack_entries_ne_nil {root : List Opt} {home : Option String}
    {s : AppState} (h : Reachable root home s) :
    ∀ e ∈ s.menuStack, e ≠ [] := by
  induction h with
  | init => simp [initialState]
  | step hr hstep ih =>
    cases hstep with
    | key ev s =>
      intro e he
      rcases menuStack_appInputCapture root ev _ with hms | hms
      · rw [hms] at he
        exact ih e he
      · rw [hms] at he
        exact ih e ((List.dropLast_sublist _).subset he)
    | select option s hmem hmode =>
      intro e he
      unfold selectOption at he
      by_cases hch : option.children.length > 0
      · rw [if_pos hch] at he
        simp at he
        rcases he with he | he
        · exact ih e he
        · subst he
          exact List.ne_nil_of_mem hmem
      · rw [if_neg hch, menuStack_executeCommandS] at he
        exact ih e he
    | search text s hmode =>
      intro e he
      exact ih e he
    | searchSelect option s hmem hmode =>
      intro e he
      rw [menuStack_executeCommandS] at he
      exact ih e he
end Talias
namespace Talias

/-! ## Claim theorems -/

/-- C3: `flattenOptions` returns exactly the leaves (nodes with empty
children) of the forest in depth-first document order — it equals the
preorder traversal filtered to childless nodes — and no node with
non-empty children ever appears in its output, even when such a node
carries a command string. -/
theorem flatten_exactly_leaves (l : List Opt) :
    flattenOptions l
      = (preorderTraversal l).filter (fun o => o.children.isEmpty) ∧
    ∀ o ∈ flattenOptions l, o.children = [] :=
  ⟨flatten_eq l, flatten_children_eq_nil l⟩

/-- C3 witness: on the concrete tree `root0` the flattening is the filtered
preorder traversal, and the leaf `editLeaf` — a member of the output —
has no children. -/
theorem flatten_exactly_leaves_witness :
    flattenOptions root0
      = (preorderTraversal root0).filter (fun o => o.children.isEmpty) ∧
    editLeaf.children = [] :=
  ⟨(flatten_exactly_leaves root0).1,
   (flatten_exactly_leaves root0).2 editLeaf (by
      simp [root0, filesGroup, docsGroup, flattenOptions, Opt.children,
        editLeaf, listLeaf])⟩

/-- C10: `flattenOptions` is idempotent — flattening a flattened forest
changes nothing, since the output consists of childless nodes on which
flattening is the identity. -/
theorem flatten_idempotent (l : List Opt) :
    flattenOptions (flattenOptions l) = flattenOptions l :=
  flatten_of_leaves (flattenOptions l) (flatten_children_eq_nil l)

end Talias
namespace Talias

theorem replaceAllAux_spec (home : List Char) (l : List Char) :
    replaceAllAux '~' ['/'] (home ++ ['/']) l = specReplaceTilde home l := by
  induction l using specReplaceTilde.induct home with
  | case1 rest ih =>
    rw [specReplaceTilde, replaceAllAux]
    simp [List.isPrefixOf, ih]
  | case2 c rest h ih =>
    have hp : (['~', '/'].isPrefixOf (c :: rest)) = false := by
      cases hx : ['~', '/'].isPrefixOf (c :: rest)
      · rfl
      · exfalso
        have hpre : ['~', '/'] <+: c :: rest := List.isPrefixOf_iff_prefix.mp hx
        obtain ⟨t, ht⟩ := hpre
        simp at ht
        obtain ⟨hc, hrest⟩ := ht
        exact h t hc.symm hrest.symm
    rw [replaceAllAux, if_neg (by simp [hp])]
    rw [specReplaceTilde]
    · rw [ih]
    · exact h
  | case3 =>
    rw [replaceAllAux, specReplaceTilde]

theorem specReplaceTilde_no_occ (home : List Char) (l : List Char)
    (h : infixOf ['~', '/'] l = false) : specReplaceTilde home l = l := by
  induction l using specReplaceTilde.induct home with
  | case1 rest ih =>
    exfalso
    have : infixOf ['~', '/'] ('~' :: '/' :: rest) = true := by
      rw [infixOf]
      simp [List.isPrefixOf]
    rw [this] at h
    simp at h
  | case2 c rest hne ih =>
    rw [infixOf] at h
    simp only [Bool.or_eq_false_iff] at h
    rw [specReplaceTilde]
    · rw [ih h.2]
    · exact hne
  | case3 => rfl

theorem data_append_str (a b : String) : (a ++ b).data = a.data ++ b.data := rfl

theorem replaceAll_tilde (cmd news : String) :
    replaceAll cmd "~/" news = ⟨replaceAllAux '~' ['/'] news.data cmd.data⟩ := rfl

theorem expandCommand_none (cmd : String) : expandCommand none cmd = cmd := by
  unfold expandCommand
  split
  · rfl
  · rfl

/-- C4: `fuzzySearch` returns exactly the options whose title contains the
query as a case-insensitive substring — it equals a filter over the input,
so input order is preserved and only titles are consulted — and the empty
query returns the full input unchanged. -/
theorem fuzzySearch_is_filter (query : String) (options : List Opt) :
    fuzzySearch query options
      = options.filter
          (fun opt =>
            decide ((strToLower query).data <:+: (strToLower opt.title).data)) ∧
    fuzzySearch "" options = options := by
  constructor
  · unfold fuzzySearch
    by_cases hq : query = ""
    · subst hq
      simp
      symm
      apply List.filter_eq_self.mpr
      intro x _
      have hemp : (strToLower "").data = [] := rfl
      rw [hemp]
      exact decide_eq_true List.nil_infix
    · rw [if_neg hq]
      rw [foldl_filter_aux]
      rw [List.nil_append]
      have hfun : (fun (opt : Opt) =>
            strContains (strToLower opt.title) (strToLower query))
          = (fun (opt : Opt) =>
              decide ((strToLower query).data <:+: (strToLower opt.title).data)) := by
        funext opt
        exact infixOf_eq_decide _ _
      rw [hfun]
  · simp [fuzzySearch]

/-- C5: for every command, expansion with a resolved home directory is the
left-to-right global replacement of every occurrence of `~/` by the
resolved home path followed by `/`, and a command without any `~/`
occurrence is returned unchanged. -/
theorem expandCommand_replaces_tilde (h cmd : String) :
    (expandCommand (some h) cmd).data
      = specReplaceTilde (joinHomeEmpty h).data cmd.data ∧
    (strContains cmd "~/" = false → expandCommand (some h) cmd = cmd) := by
  have hdata : (joinHomeEmpty h ++ "/").data = (joinHomeEmpty h).data ++ ['/'] :=
    data_append_str _ _
  constructor
  · by_cases hc : strContains cmd "~/" = true
    · rw [expandCommand, if_neg (by simp [hc])]
      rw [replaceAll_tilde, hdata]
      exact replaceAllAux_spec _ _
    · have hcf : strContains cmd "~/" = false := by
        cases hx : strContains cmd "~/"
        · rfl
        · exact absurd hx hc
      rw [expandCommand, if_pos (by simp [hcf])]
      have hinf : infixOf ['~', '/'] cmd.data = false := hcf
      exact (specReplaceTilde_no_occ _ _ hinf).symm
  · intro hcf
    rw [expandCommand, if_pos (by simp [hcf])]

/-- C5 witness: with home `/home/alice`, `cd ~/Desktop` expands to
`cd /home/alice/Desktop`, both occurrences in `cp ~/a ~/b` are replaced,
and `ls -la` (no occurrence) is unchanged. -/
theorem expandCommand_replaces_tilde_witness :
    (expandCommand (some "/home/alice") "cd ~/Desktop").data
      = ("cd /home/alice/Desktop" : String).data ∧
    (expandCommand (some "/home/alice") "cp ~/a ~/b").data
      = ("cp /home/alice/a /home/alice/b" : String).data ∧
    expandCommand (some "/home/alice") "ls -la" = "ls -la" :=
  ⟨((expandCommand_replaces_tilde "/home/alice" "cd ~/Desktop").1).trans
      (by decide),
   ((expandCommand_replaces_tilde "/home/alice" "cp ~/a ~/b").1).trans
      (by decide),
   (expandCommand_replaces_tilde "/home/alice" "ls -la").2 (by decide)⟩

/-- C6: emitting an option with an empty command writes nothing and does
not stop the run loop (a no-op on the application state); a non-empty
command is written expanded, with nothing appended, and the run loop is
stopped; and when the home directory cannot be resolved the command is
expanded to itself (emitted unmodified). -/
theorem emit_spec (homeDir : Option String) (o : Opt) :
    (o.command = "" →
      executeCommand homeDir o = ⟨"", false⟩ ∧
      ∀ s : AppState, executeCommandS homeDir o s = s) ∧
    (o.command ≠ "" →
      executeCommand homeDir o = ⟨expandCommand homeDir o.command, true⟩) ∧
    expandCommand none o.command = o.command := by
  refine ⟨?_, ?_, expandCommand_none o.command⟩
  · intro hc
    have hlen : o.command.length = 0 := (string_length_zero_iff _).mpr hc
    constructor
    · rw [executeCommand, if_pos hlen]
    · intro s
      rw [executeCommandS.eq_def, if_pos hlen]
  · intro hc
    have hlen : ¬ o.command.length = 0 :=
      fun hx => hc ((string_length_zero_iff _).mp hx)
    rw [executeCommand, if_neg hlen]

/-- C6 witness: the empty-command group `docsGroup` emits nothing and does
not stop the loop; the leaf `listLeaf` emits its expanded command and
stops the loop. -/
theorem emit_spec_witness :
    executeCommand none docsGroup = ⟨"", false⟩ ∧
    executeCommand none listLeaf = ⟨expandCommand none listLeaf.command, true⟩ :=
  ⟨((emit_spec none docsGroup).1 rfl).1,
   (emit_spec none listLeaf).2.1 (by decide)⟩

end Talias
namespace Talias
/-- C1: activating a group node appends exactly one entry — the old
`currentOptions` — to the menu stack, sets `currentOptions` to the group's
children and `currentTitle` to the group's title; an immediately following
Escape (Back in normal mode) removes exactly that entry and restores
`currentOptions` to its exact previous value. -/
theorem activate_group_then_back (root : List Opt) (home : Option String)
    (s : AppState) (g : Opt) (hmode : s.searchMode = false)
    (hg : g.children ≠ []) :
    (selectOption home g s).menuStack = s.menuStack ++ [s.currentOptions] ∧
    (selectOption home g s).currentOptions = g.children ∧
    (selectOption home g s).currentTitle = g.title ∧
    (appInputCapture root .escape (selectOption home g s)).menuStack
      = s.menuStack ∧
    (appInputCapture root .escape (selectOption home g s)).currentOptions
      = s.currentOptions := by
  have hlen : g.children.length > 0 := List.length_pos.mpr hg
  have hsel : selectOption home g s
      = { s with menuStack := s.menuStack ++ [s.currentOptions],
                 currentOptions := g.children,
                 currentTitle := g.title } := by
    rw [selectOption, if_pos hlen]
  rw [hsel]
  refine ⟨rfl, rfl, rfl, ?_, ?_⟩
  · simp [appInputCapture, hmode, List.getLast?_concat, List.dropLast_concat]
  · simp [appInputCapture, hmode, List.getLast?_concat, List.dropLast_concat]

/-- C8: Escape in normal mode with an empty menu stack stops the run loop
and changes nothing else — the whole state is the old state with only
`stopped` set, so `currentOptions`, `menuStack` and `currentTitle` are
untouched at termination. -/
theorem escape_empty_stack_quits (root : List Opt) (s : AppState)
    (hmode : s.searchMode = false) (hstack : s.menuStack = []) :
    appInputCapture root .escape s = { s with stopped := true } := by
  simp [appInputCapture, hmode, hstack]

/-- C9: leaving search mode via Escape is exactly `switchToNormalMode`,
which preserves `currentOptions`, `menuStack` and `currentTitle`; entering
search mode and every query change preserve them as well, so the user
returns to the same navigation depth they were at. -/
theorem exit_search_keeps_nav (root : List Opt) (s : AppState)
    (hmode : s.searchMode = true) :
    (appInputCapture root .escape s = switchToNormalMode s ∧
     (appInputCapture root .escape s).searchMode = false ∧
     (appInputCapture root .escape s).currentOptions = s.currentOptions ∧
     (appInputCapture root .escape s).menuStack = s.menuStack ∧
     (appInputCapture root .escape s).currentTitle = s.currentTitle) ∧
    ((switchToSearchMode root s).currentOptions = s.currentOptions ∧
     (switchToSearchMode root s).menuStack = s.menuStack ∧
     (switchToSearchMode root s).currentTitle = s.currentTitle) ∧
    ∀ q : String,
      (setSearchText root q s).currentOptions = s.currentOptions ∧
      (setSearchText root q s).menuStack = s.menuStack ∧
      (setSearchText root q s).currentTitle = s.currentTitle := by
  refine ⟨⟨?_, ?_, ?_, ?_, ?_⟩, ⟨rfl, rfl, rfl⟩, fun q => ⟨rfl, rfl, rfl⟩⟩ <;>
    simp [appInputCapture, hmode, switchToNormalMode]

/-- C7 (amended): the `?` rune key triggers the enter-search-mode
transition in *every* mode — the handler has no normal-mode guard — so in
search mode it re-runs the transition, resetting the query. -/
theorem question_always_enters_search (root : List Opt) (s : AppState) :
    appInputCapture root (KeyEvent.rune '?') s = switchToSearchMode root s := by
  rfl

/-- C7 counterexample: in `searchingState` the application is already in
search mode with query `"ab"`, yet pressing `?` does trigger the
enter-search-mode transition, observably resetting the query to `""` —
refuting that `?` enters search mode only from normal mode. -/
theorem question_in_search_mode_cex :
    searchingState.searchMode = true ∧
    searchingState.searchQuery = "ab" ∧
    appInputCapture root0 (KeyEvent.rune '?') searchingState
      = switchToSearchMode root0 searchingState ∧
    (appInputCapture root0 (KeyEvent.rune '?') searchingState).searchQuery
      = "" :=
  ⟨rfl, rfl, rfl, rfl⟩

/-- C2: in any reachable state, Escape in normal mode with a non-empty
stack pops the last stack entry into `currentOptions`, and the new title
is exactly the spec's structural lookup: the first root group whose
children titles equal the new `currentOptions` pairwise, with
`"Main Menu"` when no group matches or the stack has just emptied. -/
theorem back_pop_title (root : List Opt) (home : Option String)
    (s : AppState) (hr : Reachable root home s)
    (hmode : s.searchMode = false) (hstack : s.menuStack ≠ []) :
    some (appInputCapture root .escape s).currentOptions
      = s.menuStack.getLast? ∧
    (appInputCapture root .escape s).menuStack = s.menuStack.dropLast ∧
    (appInputCapture root .escape s).currentTitle
      = (if (appInputCapture root .escape s).menuStack.isEmpty
         then "Main Menu"
         else specBackTitle root
           (appInputCapture root .escape s).currentOptions) := by
  obtain ⟨prev, hlast⟩ : ∃ prev, s.menuStack.getLast? = some prev := by
    cases hml : s.menuStack.getLast? with
    | none => exact absurd (List.getLast?_eq_none_iff.mp hml) hstack
    | some prev => exact ⟨prev, rfl⟩
  have hprev_ne : prev ≠ [] :=
    stack_entries_ne_nil hr prev (List.mem_of_mem_getLast? hlast)
  refine ⟨?_, ?_, ?_⟩
  · simp [appInputCapture, hmode, hlast]
  · simp [appInputCapture, hmode, hlast]
  · simp only [appInputCapture, hmode, Bool.false_eq_true, if_false, hlast]
    by_cases hlen : s.menuStack.dropLast.length = 0
    · simp [hlen, List.length_eq_zero.mp hlen]
    · have hne : s.menuStack.dropLast ≠ [] := by
        intro hx
        exact hlen (by rw [hx]; rfl)
      have hie : s.menuStack.dropLast.isEmpty = false := by
        cases hil : s.menuStack.dropLast.isEmpty
        · rfl
        · exact absurd (List.isEmpty_iff.mp hil) hne
      have hlen2 : ¬(s.menuStack.length - 1 = 0) := by
        rw [← List.length_dropLast]
        exact hlen
      simp [hlen, hlen2, hie, findParentTitle_eq_spec root prev hprev_ne]
end Talias
namespace Talias
/-- C1 witness: activating `filesGroup` from the initial state and backing
out. -/
theorem activate_group_then_back_witness :
    (selectOption none filesGroup (initialState root0)).menuStack
      = (initialState root0).menuStack ++ [(initialState root0).currentOptions] ∧
    (selectOption none filesGroup (initialState root0)).currentOptions
      = filesGroup.children ∧
    (selectOption none filesGroup (initialState root0)).currentTitle
      = filesGroup.title ∧
    (appInputCapture root0 .escape
        (selectOption none filesGroup (initialState root0))).menuStack
      = (initialState root0).menuStack ∧
    (appInputCapture root0 .escape
        (selectOption none filesGroup (initialState root0))).currentOptions
      = (initialState root0).currentOptions :=
  activate_group_then_back root0 none (initialState root0) filesGroup rfl
    (by simp [filesGroup, Opt.children])

/-- C8 witness: Escape at the freshly initialised root level. -/
theorem escape_empty_stack_quits_witness :
    appInputCapture root0 .escape (initialState root0)
      = { initialState root0 with stopped := true } :=
  escape_empty_stack_quits root0 (initialState root0) rfl rfl

/-- C9 witness: leaving search mode from `searchingState`. -/
theorem exit_search_keeps_nav_witness :
    (appInputCapture root0 .escape searchingState).currentOptions
      = searchingState.currentOptions ∧
    (appInputCapture root0 .escape searchingState).menuStack
      = searchingState.menuStack ∧
    (appInputCapture root0 .escape searchingState).currentTitle
      = searchingState.currentTitle :=
  ⟨((exit_search_keeps_nav root0 searchingState rfl).1).2.2.1,
   ((exit_search_keeps_nav root0 searchingState rfl).1).2.2.2.1,
   ((exit_search_keeps_nav root0 searchingState rfl).1).2.2.2.2⟩

/-- C2 witness: two levels deep (`afterDocs`, reached by activating
`filesGroup` then `docsGroup`), backing out recomputes the title by the
structural lookup. -/
theorem back_pop_title_witness :
    some (appInputCapture root0 .escape afterDocs).currentOptions
      = afterDocs.menuStack.getLast? ∧
    (appInputCapture root0 .escape afterDocs).menuStack
      = afterDocs.menuStack.dropLast ∧
    (appInputCapture root0 .escape afterDocs).currentTitle
      = (if (appInputCapture root0 .escape afterDocs).menuStack.isEmpty
         then "Main Menu"
         else specBackTitle root0
           (appInputCapture root0 .escape afterDocs).currentOptions) := by
  have hm1 : filesGroup ∈ (initialState root0).currentOptions := by
    simp [initialState, root0]
  have h2 : Reachable root0 none afterFiles :=
    Reachable.step Reachable.init
      (Step.select filesGroup (initialState root0) hm1 rfl)
  have hm2 : docsGroup ∈ afterFiles.currentOptions := by
    simp [afterFiles, selectOption, initialState, filesGroup, Opt.children]
  have h3 : Reachable root0 none afterDocs :=
    Reachable.step h2 (Step.select docsGroup afterFiles hm2 rfl)
  exact back_pop_title root0 none afterDocs h3 rfl (by
    simp [afterDocs, afterFiles, selectOption, initialState, filesGroup,
      docsGroup, Opt.children])
end Talias
